import Mathlib

/-!
# Verification of the EFT+ scheduler client (`final.py`)

This file gives a shallow embedding of the core of the scheduler client:
the per-server timeline model (`ServerSched` with its `prune_to_time`,
`running_cores`, `earliest_start_for` and `add_job` operations), the
two-phase placement decision of the main loop (fast path over
immediately-runnable servers, general path over lexicographically ordered
candidate tuples), the job-completion pruning step, and the defensive
widening of an empty capability set.

Modelling notes, recorded once here:

* Python integers are embedded as `Int`.  The float `rate_bias` value is
  embedded as `ℚ`; the claims about it only concern the (linear) ordering
  of candidate tuples, which is the same for any linearly ordered field.
* The Python `heapq` min-heap of `(end_time, cores_used)` pairs is
  embedded as the plain list of its entries.  Every observable operation
  of the source factors through the multiset of entries: `heappush`
  inserts one entry; the pop-loop of `prune_to_time` removes exactly the
  entries with end time `≤ now` (the heap minimum is the lexicographically
  least pair, whose first component is the least end time, so the loop
  stops precisely when no entry with end time `≤ now` remains); and
  `sorted(self.heap)` sorts the entries lexicographically.  Hence
  `prune_to_time` is embedded as a filter and `sorted` as an insertion
  sort by the same lexicographic order.
* Python dictionaries (`sched_by_srv`) are embedded as association lists
  with first-match lookup and in-place replacement on insert.
* Fallible paths of the source (a `KeyError` on a missing dictionary key,
  unpacking `None` when no candidate exists) are embedded as `Option`,
  returning `none` exactly where the Python code would raise.
-/

/-- Lexicographic order on `(end_time, cores_used)` pairs: the order used
by Python both inside the `heapq` heap and by `sorted(self.heap)`. -/
def entryLe (a b : Int × Int) : Prop :=
  a.1 < b.1 ∨ (a.1 = b.1 ∧ a.2 ≤ b.2)

instance : DecidableRel entryLe := fun a b => by
  unfold entryLe; infer_instance

instance : IsTotal (Int × Int) entryLe := by
  constructor; intro a b; unfold entryLe; omega

instance : IsTrans (Int × Int) entryLe := by
  constructor; intro a b c; unfold entryLe; omega

/-- `sorted(self.heap)` of the source: the entries in non-decreasing
lexicographic order. -/
def sortEntries (l : List (Int × Int)) : List (Int × Int) :=
  List.insertionSort entryLe l

/-- Sum of the `cores_used` components of a list of entries. -/
def sumCores (l : List (Int × Int)) : Int :=
  (l.map Prod.snd).sum

/-- A list of times in non-decreasing order (used to phrase "prune at
each job's end time in the order the jobs end"). -/
def sortEnds (l : List Int) : List Int :=
  List.insertionSort (fun a b => a ≤ b) l

/-- The simulated-release loop of `earliest_start_for`: walk the entries,
advance the clock `t` to each entry's end time (never going backward),
accumulate freed cores into `avail`, and return the clock at the first
point the accumulated availability meets `cNeed` (or after the last
entry). -/
def simulate (cNeed : Int) : Int → Int → List (Int × Int) → Int
  | t, _, [] => t
  | t, avail, e :: rest =>
    let t' := if e.1 > t then e.1 else t
    let avail' := avail + e.2
    if cNeed ≤ avail' then t' else simulate cNeed t' avail' rest

/-- The per-server prediction model of the source (`class ServerSched`):
total cores of the server and the predicted in-flight entries
`(end_time, cores_used)`. -/
structure ServerSched where
  cores_total : Int
  heap : List (Int × Int)
deriving DecidableEq, Repr

namespace ServerSched

/-- `prune_to_time`: discard the entries with end time `≤ now` (the
source pops the heap while its minimum has end time `≤ now`). -/
def prune_to_time (s : ServerSched) (now : Int) : ServerSched :=
  { s with heap := s.heap.filter (fun e => decide (now < e.1)) }

/-- `running_cores`: sum of occupied cores over the retained entries. -/
def running_cores (s : ServerSched) : Int :=
  sumCores s.heap

/-- `earliest_start_for`: prune to `now`; if the immediately available
cores satisfy the demand return `now`, otherwise simulate releases in
sorted order.  Returns the mutated (pruned) model together with the
value, mirroring the in-place mutation of the source. -/
def earliest_start_for (s : ServerSched) (now c_need : Int) :
    ServerSched × Int :=
  let s' := s.prune_to_time now
  let avail := s'.cores_total - s'.running_cores
  if c_need ≤ avail then (s', now)
  else (s', simulate c_need now avail (sortEntries s'.heap))

/-- `add_job`: push the entry `(start_t + est, c_need)` and return the
end time. -/
def add_job (s : ServerSched) (start_t c_need est : Int) :
    ServerSched × Int :=
  let end_t := start_t + est
  ({ s with heap := (end_t, c_need) :: s.heap }, end_t)

end ServerSched

/-- The clock value after walking a list of entries, advancing to each
entry's end time without ever going backward. -/
def clockAfter (t : Int) (l : List (Int × Int)) : Int :=
  l.foldl (fun acc e => max acc e.1) t

/-- Length of the shortest prefix of the walked entries whose accumulated
freed cores raise `avail` to at least `k` (the whole length if no prefix
suffices). -/
def minPrefixLen (avail k : Int) : List (Int × Int) → Nat
  | [] => 0
  | e :: rest =>
    if k ≤ avail then 0 else minPrefixLen (avail + e.2) k rest + 1

/-- The specification of `earliestStartFor`, following the spec's words:
prune is done by the caller; if the immediately available cores satisfy
the demand the answer is `now`; otherwise the answer is the simulated
clock value after the shortest sufficient prefix of the entries taken in
non-decreasing end-time order (after the last entry when no prefix
suffices). -/
def earliestStartForSpec (C now k : Int) (P : List (Int × Int)) : Int :=
  if k ≤ C - sumCores P then now
  else clockAfter now
    ((sortEntries P).take (minPrefixLen (C - sumCores P) k (sortEntries P)))

/-- Availability of a model with capacity `C` and entries `P` at instant
`t`: the capacity minus the cores of the entries still running at `t`
(those with end time `> t`). -/
def availAt (C : Int) (P : List (Int × Int)) (t : Int) : Int :=
  C - sumCores (P.filter (fun e => decide (t < e.1)))

/-- One row of a `GETS` response (`parse_server_row` of the source). -/
structure ServerRow where
  type : String
  id : Int
  state : String
  curStartTime : Int
  cores : Int
  mem : Int
  disk : Int
  wJobs : Int
  rJobs : Int
deriving DecidableEq, Repr

/-- A candidate tuple of the general path:
`(finish, start, rate_bias, cores_total, type, id)`. -/
structure Cand where
  finish : Int
  start : Int
  rate_bias : ℚ
  cores_total : Int
  stype : String
  sid : Int
deriving DecidableEq, Repr

/-- The lexicographic comparison key of a candidate tuple.  Python
compares the tuple componentwise; its string comparison is the
lexicographic order on code points, which is exactly the lexicographic
order on `String.data`. -/
def candKey (a : Cand) :
    Int ×ₗ (Int ×ₗ (ℚ ×ₗ (Int ×ₗ (List Char ×ₗ Int)))) :=
  toLex (a.finish, toLex (a.start, toLex (a.rate_bias,
    toLex (a.cores_total, toLex (a.stype.data, a.sid)))))

/-- Python's `cand < best_tuple` on candidate tuples. -/
def candLt (a b : Cand) : Bool :=
  decide (candKey a < candKey b)

/-- The comparison key of a fast-path triple `(cores_total, type, id)`. -/
def fastKey (t : Int × String × Int) : Int ×ₗ (List Char ×ₗ Int) :=
  toLex (t.1, toLex (t.2.1.data, t.2.2))

/-- Python's `<` on fast-path triples (the `key` of the `min` call). -/
def tripleLt (a b : Int × String × Int) : Bool :=
  decide (fastKey a < fastKey b)

/-- The running-minimum fold shared by Python's `min(...)` call (fast
path) and the `best_tuple` loop (general path): the current best is
replaced only when the new element is strictly smaller, so the first of
several equal minima wins. -/
def foldBest (lt : α → α → Bool) : Option α → List α → Option α
  | acc, [] => acc
  | none, x :: xs => foldBest lt (some x) xs
  | some b, x :: xs => foldBest lt (some (if lt x b then x else b)) xs

/-- The `best_tuple` selection of the general path. -/
def selectBest (l : List Cand) : Option Cand :=
  foldBest candLt none l

/-- Key of the `sched_by_srv` dictionary: `(serverType, serverId)`. -/
abbrev SrvKey := String × Int

/-- The `sched_by_srv` dictionary, embedded as an association list. -/
abbrev SchedMap := List (SrvKey × ServerSched)

/-- First-match lookup in an association list (Python `dict` lookup). -/
def mlookup : SchedMap → SrvKey → Option ServerSched
  | [], _ => none
  | (k, v) :: rest, key => if k = key then some v else mlookup rest key

/-- In-place replacement (or append) in an association list (Python
`dict` assignment). -/
def minsert : SchedMap → SrvKey → ServerSched → SchedMap
  | [], key, v => [(key, v)]
  | (k, w) :: rest, key, v =>
    if k = key then (key, v) :: rest else (k, w) :: minsert rest key v

/-- `state_penalty_seconds` of the source: `"active"` and `"idle"` incur
no delay, every other state is penalised by the boot time (clamped to be
non-negative). -/
def state_penalty_seconds (state : String) (boot_seconds : Int) : Int :=
  if state = "active" ∨ state = "idle" then 0 else max 0 boot_seconds

/-- The fast-path filter: candidates reported live in state `"active"`
or `"idle"`, with zero queued jobs and enough reported free cores. -/
def instantList (j_cores : Int) (caps : List ServerRow) : List ServerRow :=
  caps.filter (fun s =>
    decide ((s.state = "active" ∨ s.state = "idle") ∧
      s.wJobs = 0 ∧ j_cores ≤ s.cores))

/-- The fast-path ranking triple `(cores_total, type, id)` of a row,
with the total capacity taken from the catalog when known and otherwise
from the reported value. -/
def fastTriple (tc : String → Option Int) (s : ServerRow) :
    Int × String × Int :=
  ((tc s.type).getD s.cores, s.type, s.id)

/-- One step of the general path's candidate loop: look up (or lazily
create) the server's timeline model, query it (which prunes it in
place), apply the boot penalty and the cost bias, store the updated
model back, and append the candidate tuple. -/
def evalCand (tb : String → Option Int) (tr : String → Option ℚ)
    (tc : String → Option Int) (cost_bias : ℚ) (fallback : Int)
    (now j_cores j_est : Int) (mc : SchedMap × List Cand)
    (s : ServerRow) : SchedMap × List Cand :=
  let key : SrvKey := (s.type, s.id)
  let sched := (mlookup mc.1 key).getD ⟨(tc s.type).getD s.cores, []⟩
  let pr := sched.earliest_start_for now j_cores
  let start := pr.2 + state_penalty_seconds s.state ((tb s.type).getD fallback)
  let finish := start + j_est
  let rate_bias := cost_bias * (tr s.type).getD 0 * (j_est : ℚ)
  (minsert mc.1 key pr.1,
    mc.2 ++ [⟨finish, start, rate_bias, (tc s.type).getD s.cores, s.type, s.id⟩])

/-- The general path: evaluate every candidate (threading the mutated
models through), pick the minimal candidate tuple, schedule on it and
record the job at the chosen start.  Returns `none` exactly where the
source would raise (no candidate at all, or a vanished model). -/
def jobnGeneral (tb : String → Option Int) (tr : String → Option ℚ)
    (tc : String → Option Int) (cost_bias : ℚ) (fallback : Int)
    (now j_cores j_est : Int) (caps : List ServerRow) (m : SchedMap) :
    Option (Cand × SchedMap) :=
  let mc := caps.foldl (evalCand tb tr tc cost_bias fallback now j_cores j_est) (m, [])
  match selectBest mc.2 with
  | none => none
  | some b =>
    match mlookup mc.1 (b.stype, b.sid) with
    | none => none
    | some sc =>
      some (b, minsert mc.1 (b.stype, b.sid) (sc.add_job b.start j_cores j_est).1)

/-- The whole `JOBN` decision over a capability list: fast path when an
immediately runnable candidate exists, general path otherwise. -/
def jobnDecision (tb : String → Option Int) (tr : String → Option ℚ)
    (tc : String → Option Int) (cost_bias : ℚ) (fallback : Int)
    (now j_cores j_est : Int) (caps : List ServerRow) (m : SchedMap) :
    Option (SrvKey × SchedMap) :=
  let instant := instantList j_cores caps
  if instant.isEmpty then
    match jobnGeneral tb tr tc cost_bias fallback now j_cores j_est caps m with
    | none => none
    | some (b, m') => some ((b.stype, b.sid), m')
  else
    match foldBest tripleLt none (instant.map (fastTriple tc)) with
    | none => none
    | some t =>
      match mlookup m (t.2.1, t.2.2) with
      | none => none
      | some sc =>
        some ((t.2.1, t.2.2),
          minsert m (t.2.1, t.2.2) (sc.add_job now j_cores j_est).1)

/-- The `JOBN` handler including the defensive widening: when the
reported capability list is empty, every known server is considered
instead. -/
def jobnStep (tb : String → Option Int) (tr : String → Option ℚ)
    (tc : String → Option Int) (cost_bias : ℚ) (fallback : Int)
    (now j_cores j_est : Int) (capsReported allServers : List ServerRow)
    (m : SchedMap) : Option (SrvKey × SchedMap) :=
  let caps := if capsReported.isEmpty then allServers else capsReported
  jobnDecision tb tr tc cost_bias fallback now j_cores j_est caps m

/-- The `JCPL` handler: prune the completed job's server model to the
completion time; a server with no tracked model is left alone. -/
def jcplStep (m : SchedMap) (now : Int) (stype : String) (sid : Int) :
    SchedMap :=
  match mlookup m (stype, sid) with
  | some sc => minsert m (stype, sid) (sc.prune_to_time now)
  | none => m

/-! ### Scenario fixtures (end-to-end scenario B of the spec) -/

/-- Scenario B: the `"big"` server row, currently `"inactive"`. -/
def scenB_big : ServerRow := ⟨"big", 1, "inactive", 0, 8, 1000, 1000, 0, 0⟩

/-- Scenario B: the `"small"` server row, `"idle"` with 0 free cores. -/
def scenB_small : ServerRow := ⟨"small", 1, "idle", 0, 0, 1000, 1000, 0, 1⟩

/-- Scenario B: the capability-filtered candidate rows. -/
def scenB_caps : List ServerRow := [scenB_small, scenB_big]

/-- Scenario B catalog: total cores per type. -/
def scenB_tc : String → Option Int := fun t =>
  if t = "big" then some 8 else if t = "small" then some 4 else none

/-- Scenario B catalog: boot seconds per type. -/
def scenB_tb : String → Option Int := fun t =>
  if t = "big" then some 60 else if t = "small" then some 0 else none

/-- Scenario B catalog: hourly rates (left unspecified by the scenario). -/
def scenB_tr : String → Option ℚ := fun _ => none

/-- Scenario B: tracked models — `"small"` still occupied by a prior
unpruned job of 4 cores ending at 500, `"big"` free. -/
def scenB_m : SchedMap :=
  [(("small", 1), ⟨4, [(500, 4)]⟩), (("big", 1), ⟨8, []⟩)]

/-! ### Lemmas: the simulated-release walk -/

theorem clockAfter_cons (t : Int) (e : Int × Int) (l : List (Int × Int)) :
    clockAfter t (e :: l) = clockAfter (max t e.1) l := rfl

theorem le_clockAfter (t : Int) (l : List (Int × Int)) :
    t ≤ clockAfter t l := by
  induction l generalizing t with
  | nil => exact le_refl t
  | cons e rest ih =>
    calc t ≤ max t e.1 := le_max_left _ _
    _ ≤ clockAfter (max t e.1) rest := ih _
    _ = clockAfter t (e :: rest) := (clockAfter_cons t e rest).symm

theorem clockAfter_mono (t t' : Int) (l : List (Int × Int))
    (h : t ≤ t') : clockAfter t l ≤ clockAfter t' l := by
  induction l generalizing t t' with
  | nil => exact h
  | cons e rest ih =>
    rw [clockAfter_cons, clockAfter_cons]
    exact ih _ _ (max_le_max_right _ h)

theorem clockAfter_append (t : Int) (l l' : List (Int × Int)) :
    clockAfter t (l ++ l') = clockAfter (clockAfter t l) l' := by
  simp [clockAfter, List.foldl_append]

theorem clockAfter_le_iff (t c : Int) (l : List (Int × Int)) :
    clockAfter t l ≤ c ↔ t ≤ c ∧ ∀ e ∈ l, e.1 ≤ c := by
  induction l generalizing t with
  | nil => simp [clockAfter]
  | cons e rest ih =>
    rw [clockAfter_cons, ih]
    constructor
    · rintro ⟨h1, h2⟩
      have := max_le_iff.mp h1
      exact ⟨this.1, by
        intro f hf
        rcases List.mem_cons.mp hf with rfl | hf
        · exact this.2
        · exact h2 f hf⟩
    · rintro ⟨h1, h2⟩
      refine ⟨max_le h1 (h2 e (List.mem_cons_self _ _)), ?_⟩
      intro f hf
      exact h2 f (List.mem_cons_of_mem _ hf)

theorem mem_le_clockAfter (t : Int) (l : List (Int × Int)) (e : Int × Int)
    (he : e ∈ l) : e.1 ≤ clockAfter t l :=
  ((clockAfter_le_iff t (clockAfter t l) l).mp le_rfl).2 e he

theorem clockAfter_take_mono (t : Int) (l : List (Int × Int)) (j j' : Nat)
    (h : j ≤ j') : clockAfter t (l.take j) ≤ clockAfter t (l.take j') := by
  have h1 : (l.take j').take j = l.take j := by
    rw [List.take_take, min_eq_left h]
  have hsplit : l.take j' = l.take j ++ (l.take j').drop j := by
    conv_lhs => rw [← List.take_append_drop j (l.take j')]
    rw [h1]
  rw [hsplit, clockAfter_append]
  exact le_clockAfter _ _

theorem clockAfter_perm (l l' : List (Int × Int)) (p : l.Perm l') :
    ∀ t, clockAfter t l = clockAfter t l' := by
  induction p with
  | nil => intro t; rfl
  | cons x _ ih =>
    intro t
    rw [clockAfter_cons, clockAfter_cons, ih]
  | swap x y l =>
    intro t
    rw [clockAfter_cons, clockAfter_cons, clockAfter_cons, clockAfter_cons,
      max_assoc, max_assoc, max_comm y.1 x.1]
  | trans _ _ ih1 ih2 =>
    intro t
    rw [ih1, ih2]

theorem minPrefixLen_le_length (avail k : Int) (l : List (Int × Int)) :
    minPrefixLen avail k l ≤ l.length := by
  induction l generalizing avail with
  | nil => exact Nat.le_refl _
  | cons e rest ih =>
    simp only [minPrefixLen]
    split
    · exact Nat.zero_le _
    · exact Nat.succ_le_succ (ih _)

theorem minPrefixLen_of_le (avail k : Int) (l : List (Int × Int))
    (h : k ≤ avail) : minPrefixLen avail k l = 0 := by
  cases l with
  | nil => rfl
  | cons e rest => simp [minPrefixLen, h]

theorem minPrefixLen_mono (avail k k' : Int) (l : List (Int × Int))
    (h : k ≤ k') : minPrefixLen avail k l ≤ minPrefixLen avail k' l := by
  induction l generalizing avail with
  | nil => exact Nat.le_refl _
  | cons e rest ih =>
    simp only [minPrefixLen]
    by_cases h' : k' ≤ avail
    · rw [if_pos h', if_pos (le_trans h h')]
    · rw [if_neg h']
      split
      · exact Nat.zero_le _
      · exact Nat.succ_le_succ (ih _)

theorem if_max (a b : Int) : (if b > a then b else a) = max a b := by
  rw [max_def]
  split <;> split <;> omega

theorem sumCores_nil : sumCores [] = 0 := rfl

theorem sumCores_cons (e : Int × Int) (l : List (Int × Int)) :
    sumCores (e :: l) = e.2 + sumCores l := by
  simp [sumCores]

theorem sumCores_append (l l' : List (Int × Int)) :
    sumCores (l ++ l') = sumCores l + sumCores l' := by
  simp [sumCores]

theorem sumCores_nonneg (l : List (Int × Int))
    (h : ∀ e ∈ l, 0 ≤ e.2) : 0 ≤ sumCores l := by
  refine List.sum_nonneg ?_
  intro x hx
  rcases List.mem_map.mp hx with ⟨e, he, rfl⟩
  exact h e he

theorem sumCores_perm (l l' : List (Int × Int)) (p : l.Perm l') :
    sumCores l = sumCores l' :=
  (p.map Prod.snd).sum_eq

theorem sumCores_filter_split (p : Int × Int → Bool) (l : List (Int × Int)) :
    sumCores (l.filter p) + sumCores (l.filter (fun e => !(p e))) = sumCores l := by
  induction l with
  | nil => rfl
  | cons e rest ih =>
    rw [List.filter_cons, List.filter_cons]
    by_cases h : p e = true
    · rw [if_pos h, if_neg (by simp [h]), sumCores_cons, sumCores_cons]
      omega
    · rw [if_neg h, if_pos (by simp [h] : ((!(p e)) = true)), sumCores_cons,
        sumCores_cons]
      omega

theorem availAt_eq (C : Int) (P : List (Int × Int)) (t : Int) :
    availAt C P t =
      (C - sumCores P) + sumCores (P.filter (fun e => decide (e.1 ≤ t))) := by
  have hcongr : P.filter (fun e => !(decide (t < e.1))) =
      P.filter (fun e => decide (e.1 ≤ t)) := by
    refine List.filter_congr ?_
    intro e _
    by_cases h : t < e.1 <;> simp [h] <;> omega
  have := sumCores_filter_split (fun e => decide (t < e.1)) P
  rw [hcongr] at this
  unfold availAt
  omega

theorem availAt_perm (C : Int) (P P' : List (Int × Int)) (t : Int)
    (p : P.Perm P') : availAt C P t = availAt C P' t := by
  unfold availAt
  rw [sumCores_perm _ _ (p.filter _)]

theorem availAt_cons (C : Int) (E c t : Int) (P : List (Int × Int)) :
    availAt C ((E, c) :: P) t = availAt C P t - (if t < E then c else 0) := by
  unfold availAt
  by_cases h : t < E <;> simp [List.filter_cons, h, sumCores_cons] <;> omega

theorem minPrefixLen_suff (avail k : Int) (l : List (Int × Int))
    (h : avail < k) :
    minPrefixLen avail k l = l.length ∨
      k ≤ avail + sumCores (l.take (minPrefixLen avail k l)) := by
  induction l generalizing avail with
  | nil => exact Or.inl rfl
  | cons e rest ih =>
    rw [minPrefixLen, if_neg (not_le.mpr h)]
    by_cases hs : k ≤ avail + e.2
    · rw [minPrefixLen_of_le _ _ _ hs]
      right
      rw [List.take_succ_cons, List.take_zero, sumCores_cons, sumCores_nil]
      omega
    · rcases ih (avail + e.2) (not_le.mp hs) with h1 | h1
      · left
        simp [h1]
      · right
        rw [List.take_succ_cons, sumCores_cons]
        omega

theorem minPrefixLen_min (avail k : Int) (l : List (Int × Int))
    (h : avail < k) :
    ∀ j, j < minPrefixLen avail k l → avail + sumCores (l.take j) < k := by
  induction l generalizing avail with
  | nil => intro j hj; simp [minPrefixLen] at hj
  | cons e rest ih =>
    rw [minPrefixLen, if_neg (not_le.mpr h)]
    intro j hj
    cases j with
    | zero => simpa [sumCores_nil] using h
    | succ j' =>
      have hj' : j' < minPrefixLen (avail + e.2) k rest := Nat.lt_of_succ_lt_succ hj
      by_cases hs : k ≤ avail + e.2
      · rw [minPrefixLen_of_le _ _ _ hs] at hj'
        exact absurd hj' (Nat.not_lt_zero _)
      · have := ih (avail + e.2) (not_le.mp hs) j' hj'
        rw [List.take_succ_cons, sumCores_cons]
        omega

/-- `sorted(self.heap)` is sorted by end time. -/
theorem sortEntries_sorted (l : List (Int × Int)) :
    (sortEntries l).Pairwise (fun a b => a.1 ≤ b.1) :=
  (List.sorted_insertionSort entryLe l).imp (by
    intro a b h
    unfold entryLe at h
    omega)

/-- `sorted(self.heap)` is a permutation of the heap entries. -/
theorem sortEntries_perm (l : List (Int × Int)) : (sortEntries l).Perm l :=
  List.perm_insertionSort entryLe l

theorem filter_le_eq_takeWhile (t : Int) (l : List (Int × Int))
    (hs : l.Pairwise (fun a b => a.1 ≤ b.1)) :
    l.filter (fun e => decide (e.1 ≤ t)) =
      l.takeWhile (fun e => decide (e.1 ≤ t)) := by
  induction l with
  | nil => rfl
  | cons e rest ih =>
    rcases List.pairwise_cons.mp hs with ⟨he, hrest⟩
    by_cases h : e.1 ≤ t
    · rw [List.filter_cons, List.takeWhile_cons, if_pos (by simpa using h),
        if_pos (by simpa using h), ih hrest]
    · rw [List.filter_cons, List.takeWhile_cons, if_neg (by simpa using h),
        if_neg (by simpa using h)]
      refine List.filter_eq_nil_iff.mpr ?_
      intro b hb
      have := he b hb
      simp only [decide_eq_true_eq]
      omega

/-- The source's release-simulation loop computes exactly the clock value
after the shortest sufficient prefix of the walked entries. -/
theorem simulate_eq (k : Int) (t avail : Int) (l : List (Int × Int))
    (h : avail < k) :
    simulate k t avail l = clockAfter t (l.take (minPrefixLen avail k l)) := by
  induction l generalizing t avail with
  | nil => rfl
  | cons e rest ih =>
    rw [minPrefixLen, if_neg (not_le.mpr h)]
    simp only [simulate, List.take_succ_cons, clockAfter_cons]
    rw [if_max]
    by_cases hs : k ≤ avail + e.2
    · rw [if_pos hs, minPrefixLen_of_le _ _ _ hs]
      rfl
    · rw [if_neg hs]
      exact ih _ _ (not_le.mp hs)

/-- Bridge: the source's `earliest_start_for` prunes the model and
returns exactly the value described by `earliestStartForSpec` on the
pruned entries. -/
theorem earliest_start_for_eq (s : ServerSched) (now k : Int) :
    s.earliest_start_for now k =
      (s.prune_to_time now,
        earliestStartForSpec s.cores_total now k (s.prune_to_time now).heap) := by
  have hc : (s.prune_to_time now).cores_total = s.cores_total := rfl
  simp only [ServerSched.earliest_start_for, earliestStartForSpec,
    ServerSched.running_cores, hc]
  by_cases h : k ≤ s.cores_total - sumCores (s.prune_to_time now).heap
  · rw [if_pos h, if_pos h]
  · rw [if_neg h, if_neg h, simulate_eq _ _ _ _ (not_le.mp h)]

theorem spec_ge_now (C now k : Int) (P : List (Int × Int)) :
    now ≤ earliestStartForSpec C now k P := by
  unfold earliestStartForSpec
  split
  · exact le_refl now
  · exact le_clockAfter _ _

theorem spec_le_clockAfter (C now k : Int) (P : List (Int × Int)) :
    earliestStartForSpec C now k P ≤ clockAfter now P := by
  unfold earliestStartForSpec
  split
  · exact le_clockAfter _ _
  · refine le_trans
      (clockAfter_take_mono now (sortEntries P) _ _
        (minPrefixLen_le_length _ _ _)) ?_
    rw [List.take_length]
    exact le_of_eq (clockAfter_perm _ _ (sortEntries_perm P) now)

/-- When each entry occupies a non-negative number of cores, the value
returned by the spec walk either really has `k` cores available or is
the degenerate after-the-last-release clock. -/
theorem spec_suff_or_deg (C now k : Int) (P : List (Int × Int))
    (hP : ∀ e ∈ P, 0 ≤ e.2) :
    k ≤ availAt C P (earliestStartForSpec C now k P) ∨
      earliestStartForSpec C now k P = clockAfter now P := by
  unfold earliestStartForSpec
  by_cases h : k ≤ C - sumCores P
  · rw [if_pos h]
    left
    rw [availAt_eq]
    have : 0 ≤ sumCores (P.filter (fun e => decide (e.1 ≤ now))) :=
      sumCores_nonneg _ (fun e he => hP e (List.mem_of_mem_filter he))
    omega
  · rw [if_neg h]
    rcases minPrefixLen_suff (C - sumCores P) k (sortEntries P)
        (not_le.mp h) with hdeg | hsuf
    · right
      rw [hdeg, List.take_length]
      exact clockAfter_perm _ _ (sortEntries_perm P) now
    · left
      have hEsP : ∀ e ∈ sortEntries P, 0 ≤ e.2 := by
        intro e he
        exact hP e ((sortEntries_perm P).mem_iff.mp he)
      refine le_trans hsuf ?_
      generalize minPrefixLen (C - sumCores P) k (sortEntries P) = m
      set r := clockAfter now ((sortEntries P).take m) with hr
      have hsum : sumCores (P.filter (fun e => decide (e.1 ≤ r))) =
          sumCores ((sortEntries P).filter (fun e => decide (e.1 ≤ r))) :=
        (sumCores_perm _ _ ((sortEntries_perm P).filter _)).symm
      have hself : ((sortEntries P).take m).filter
          (fun e => decide (e.1 ≤ r)) = (sortEntries P).take m := by
        refine List.filter_eq_self.mpr ?_
        intro e he
        exact decide_eq_true (mem_le_clockAfter now _ e he)
      have hsplit : (sortEntries P).filter (fun e => decide (e.1 ≤ r)) =
          (sortEntries P).take m ++
            ((sortEntries P).drop m).filter (fun e => decide (e.1 ≤ r)) := by
        conv_lhs => rw [← List.take_append_drop m (sortEntries P)]
        rw [List.filter_append, hself]
      have hnn : 0 ≤ sumCores (((sortEntries P).drop m).filter
          (fun e => decide (e.1 ≤ r))) := by
        refine sumCores_nonneg _ ?_
        intro e he
        exact hEsP e (List.mem_of_mem_drop (List.mem_of_mem_filter he))
      rw [availAt_eq, hsum, hsplit, sumCores_append]
      omega

/-- Minimality: strictly before the returned value, fewer than `k` cores
are ever available. -/
theorem spec_min (C now k : Int) (P : List (Int × Int)) :
    ∀ t, now ≤ t → t < earliestStartForSpec C now k P → availAt C P t < k := by
  unfold earliestStartForSpec
  by_cases h : k ≤ C - sumCores P
  · rw [if_pos h]
    intro t ht1 ht2
    omega
  · rw [if_neg h]
    intro t ht1 ht2
    have hsum : sumCores (P.filter (fun e => decide (e.1 ≤ t))) =
        sumCores ((sortEntries P).filter (fun e => decide (e.1 ≤ t))) :=
      (sumCores_perm _ _ ((sortEntries_perm P).filter _)).symm
    have htw : (sortEntries P).filter (fun e => decide (e.1 ≤ t)) =
        (sortEntries P).takeWhile (fun e => decide (e.1 ≤ t)) :=
      filter_le_eq_takeWhile t (sortEntries P) (sortEntries_sorted P)
    set tw := (sortEntries P).takeWhile (fun e => decide (e.1 ≤ t)) with htwdef
    have htake : (sortEntries P).take tw.length = tw := by
      conv_lhs => rw [← List.takeWhile_append_dropWhile
        (p := fun e => decide (e.1 ≤ t)) (l := sortEntries P)]
      exact List.take_left _ _
    have hlt : tw.length < minPrefixLen (C - sumCores P) k (sortEntries P) := by
      by_contra hge
      have hge' : minPrefixLen (C - sumCores P) k (sortEntries P) ≤ tw.length :=
        Nat.le_of_not_lt hge
      have heq : (sortEntries P).take
          (minPrefixLen (C - sumCores P) k (sortEntries P)) =
          tw.take (minPrefixLen (C - sumCores P) k (sortEntries P)) := by
        rw [← htake, List.take_take, min_eq_left hge']
      have hall : ∀ e ∈ (sortEntries P).take
          (minPrefixLen (C - sumCores P) k (sortEntries P)), e.1 ≤ t := by
        intro e he
        rw [heq] at he
        have : e ∈ tw := List.mem_of_mem_take he
        simpa using List.mem_takeWhile_imp this
      have : clockAfter now ((sortEntries P).take
          (minPrefixLen (C - sumCores P) k (sortEntries P))) ≤ t :=
        (clockAfter_le_iff _ _ _).mpr ⟨ht1, hall⟩
      omega
    have := minPrefixLen_min (C - sumCores P) k (sortEntries P)
      (not_le.mp h) tw.length hlt
    rw [availAt_eq, hsum, htw, ← htake]
    omega

/-- The spec value is monotone in the core demand. -/
theorem spec_mono_k (C now k k' : Int) (P : List (Int × Int))
    (h : k ≤ k') :
    earliestStartForSpec C now k P ≤ earliestStartForSpec C now k' P := by
  unfold earliestStartForSpec
  by_cases h' : k' ≤ C - sumCores P
  · rw [if_pos h', if_pos (le_trans h h')]
  · rw [if_neg h']
    by_cases h0 : k ≤ C - sumCores P
    · rw [if_pos h0]
      exact le_clockAfter _ _
    · rw [if_neg h0]
      exact clockAfter_take_mono _ _ _ _ (minPrefixLen_mono _ _ _ _ h)

/-- Adding one non-negatively-sized entry to the (pruned) entries never
makes the spec value smaller. -/
theorem spec_add_mono (C now k E c : Int) (P : List (Int × Int))
    (hc : 0 ≤ c) (hP : ∀ e ∈ P, 0 ≤ e.2) :
    earliestStartForSpec C now k P ≤
      earliestStartForSpec C now k ((E, c) :: P) := by
  by_contra hcon
  push_neg at hcon
  have hP' : ∀ e ∈ (E, c) :: P, 0 ≤ e.2 := by
    intro e he
    rcases List.mem_cons.mp he with rfl | he'
    · exact hc
    · exact hP e he'
  have hge := spec_ge_now C now k ((E, c) :: P)
  rcases spec_suff_or_deg C now k ((E, c) :: P) hP' with hsuf | hdeg
  · have hmin := spec_min C now k P _ hge hcon
    have hle : availAt C ((E, c) :: P) (earliestStartForSpec C now k ((E, c) :: P)) ≤
        availAt C P (earliestStartForSpec C now k ((E, c) :: P)) := by
      rw [availAt_cons]
      split <;> omega
    omega
  · have h1 := spec_le_clockAfter C now k P
    have h2 : clockAfter now P ≤ clockAfter now ((E, c) :: P) := by
      rw [clockAfter_cons]
      exact clockAfter_mono _ _ _ (le_max_left _ _)
    omega

/-- On an empty (pruned) timeline the spec value is `now`, whatever the
demand. -/
theorem spec_nil (C now k : Int) : earliestStartForSpec C now k [] = now := by
  unfold earliestStartForSpec
  split
  · rfl
  · rfl

/-- Folding `prune_to_time` over a list of times filters the heap by all
of them at once. -/
theorem fold_prune_heap (ts : List Int) (s : ServerSched) :
    (ts.foldl ServerSched.prune_to_time s).heap =
      s.heap.filter (fun e => ts.all (fun t => decide (t < e.1))) := by
  induction ts generalizing s with
  | nil => simp
  | cons t ts ih =>
    rw [List.foldl_cons, ih]
    show ((s.heap.filter fun e => decide (t < e.1)).filter
        fun e => ts.all fun u => decide (u < e.1)) = _
    rw [List.filter_filter]
    refine List.filter_congr ?_
    intro e _
    simp [List.all_cons, Bool.and_comm]

/-- Every entry of a model built by repeated `add_job` from `s` is an
original entry of `s` or has one of the added jobs' end times. -/
theorem fold_add_mem (jobs : List (Int × Int × Int)) (s : ServerSched) :
    ∀ e ∈ (jobs.foldl (fun s j => (s.add_job j.1 j.2.1 j.2.2).1) s).heap,
      e ∈ s.heap ∨ e.1 ∈ jobs.map (fun j => j.1 + j.2.2) := by
  induction jobs generalizing s with
  | nil => exact fun e he => Or.inl he
  | cons j rest ih =>
    intro e he
    rcases ih _ e he with h | h
    · rcases List.mem_cons.mp h with h' | h'
      · right
        rw [h']
        simp
      · exact Or.inl h'
    · right
      simp only [List.map_cons, List.mem_cons]
      exact Or.inr h

/-! ### Lemmas: the running-minimum fold and the tuple orders -/

theorem ltAsymm (lt : α → α → Bool)
    (htr : ∀ a b c, lt a b = true → lt b c = true → lt a c = true)
    (hirr : ∀ a, lt a a = false) :
    ∀ u v, lt u v = true → lt v u = false := by
  intro u v huv
  cases h : lt v u
  · rfl
  · exact absurd (htr u v u huv h) (by rw [hirr]; simp)

/-- The running-minimum fold starting from `b` returns an element that
no processed element strictly beats, and that is `b` itself or a
processed element strictly beating `b`. -/
theorem foldBest_spec (lt : α → α → Bool)
    (htr : ∀ a b c, lt a b = true → lt b c = true → lt a c = true)
    (hirr : ∀ a, lt a a = false) (l : List α) (b : α) :
    ∃ m, foldBest lt (some b) l = some m ∧
      (m = b ∨ (m ∈ l ∧ lt m b = true)) ∧ ∀ x ∈ l, lt x m = false := by
  induction l generalizing b with
  | nil => exact ⟨b, rfl, Or.inl rfl, by simp⟩
  | cons x xs ih =>
    by_cases hxb : lt x b = true
    · have hfold : foldBest lt (some b) (x :: xs) = foldBest lt (some x) xs := by
        simp [foldBest, hxb]
      rcases ih x with ⟨m, hm, hrel, hmin⟩
      refine ⟨m, by rw [hfold]; exact hm, ?_, ?_⟩
      · rcases hrel with rfl | ⟨hmem, hlt⟩
        · exact Or.inr ⟨List.mem_cons_self _ _, hxb⟩
        · exact Or.inr ⟨List.mem_cons_of_mem _ hmem, htr _ _ _ hlt hxb⟩
      · intro y hy
        rcases List.mem_cons.mp hy with rfl | hy'
        · rcases hrel with rfl | ⟨_, hlt⟩
          · exact hirr _
          · exact ltAsymm lt htr hirr _ _ hlt
        · exact hmin y hy'
    · have hxb' : lt x b = false := by simpa using hxb
      have hfold : foldBest lt (some b) (x :: xs) = foldBest lt (some b) xs := by
        simp [foldBest, hxb']
      rcases ih b with ⟨m, hm, hrel, hmin⟩
      refine ⟨m, by rw [hfold]; exact hm, ?_, ?_⟩
      · rcases hrel with rfl | ⟨hmem, hlt⟩
        · exact Or.inl rfl
        · exact Or.inr ⟨List.mem_cons_of_mem _ hmem, hlt⟩
      · intro y hy
        rcases List.mem_cons.mp hy with rfl | hy'
        · rcases hrel with rfl | ⟨_, hlt⟩
          · exact hxb'
          · cases h : lt y m
            · rfl
            · exact absurd (htr _ _ _ h hlt) (by simp [hxb'])
        · exact hmin y hy'

/-- On a non-empty list, Python's first-minimum fold yields a member
that no element of the list strictly beats. -/
theorem foldBest_nonempty (lt : α → α → Bool)
    (htr : ∀ a b c, lt a b = true → lt b c = true → lt a c = true)
    (hirr : ∀ a, lt a a = false) (l : List α) (hne : l ≠ []) :
    ∃ m, foldBest lt none l = some m ∧ m ∈ l ∧ ∀ x ∈ l, lt x m = false := by
  cases l with
  | nil => exact absurd rfl hne
  | cons x xs =>
    rcases foldBest_spec lt htr hirr xs x with ⟨m, hm, hrel, hmin⟩
    have hfold : foldBest lt none (x :: xs) = foldBest lt (some x) xs := rfl
    refine ⟨m, by rw [hfold]; exact hm, ?_, ?_⟩
    · rcases hrel with rfl | ⟨hmem, _⟩
      · exact List.mem_cons_self _ _
      · exact List.mem_cons_of_mem _ hmem
    · intro y hy
      rcases List.mem_cons.mp hy with rfl | hy'
      · rcases hrel with rfl | ⟨_, hlt⟩
        · exact hirr _
        · exact ltAsymm lt htr hirr _ _ hlt
      · exact hmin y hy'

theorem candLt_trans : ∀ a b c : Cand,
    candLt a b = true → candLt b c = true → candLt a c = true := by
  intro a b c h1 h2
  simp only [candLt, decide_eq_true_eq] at h1 h2 ⊢
  exact lt_trans h1 h2

theorem candLt_irrefl : ∀ a : Cand, candLt a a = false := by
  intro a
  exact decide_eq_false (lt_irrefl _)

/-- Two candidates that neither strictly beats the other agree on the
whole comparison key, in particular on `(serverType, serverId)`. -/
theorem candLt_both_false (a b : Cand) (h1 : candLt a b = false)
    (h2 : candLt b a = false) : a.stype = b.stype ∧ a.sid = b.sid := by
  simp only [candLt, decide_eq_false_iff_not, not_lt] at h1 h2
  have hk : candKey a = candKey b := le_antisymm h2 h1
  unfold candKey at hk
  simp only [toLex_inj, Prod.mk.injEq] at hk
  obtain ⟨_, _, _, _, hdata, hsid⟩ := hk
  exact ⟨String.ext hdata, hsid⟩

theorem tripleLt_trans : ∀ a b c : Int × String × Int,
    tripleLt a b = true → tripleLt b c = true → tripleLt a c = true := by
  intro a b c h1 h2
  simp only [tripleLt, decide_eq_true_eq] at h1 h2 ⊢
  exact lt_trans h1 h2

theorem tripleLt_irrefl : ∀ a : Int × String × Int, tripleLt a a = false := by
  intro a
  exact decide_eq_false (lt_irrefl _)

/-! ### Claim theorems -/

/-- C1: `earliest_start_for(now, coresNeeded)` first prunes entries with
end time `≤ now`; if the remaining capacity covers the demand it returns
`now`; otherwise it walks the retained entries in non-decreasing
end-time order, advancing a simulated clock to each entry's end time
without going backward while accumulating freed cores, and returns the
clock value at the first point the accumulated availability meets the
demand, or the clock after the last entry when no prefix suffices
(`earliestStartForSpec` states exactly that walk; the list walked is
sorted by end time and is a permutation of the retained entries). -/
theorem c1_earliest_start_for_follows_spec (s : ServerSched) (now k : Int) :
    s.earliest_start_for now k =
      (s.prune_to_time now,
        earliestStartForSpec s.cores_total now k (s.prune_to_time now).heap) ∧
    (sortEntries (s.prune_to_time now).heap).Pairwise (fun a b => a.1 ≤ b.1) ∧
    (sortEntries (s.prune_to_time now).heap).Perm (s.prune_to_time now).heap :=
  ⟨earliest_start_for_eq s now k, sortEntries_sorted _, sortEntries_perm _⟩

/-- C2: after `prune_to_time t`, every retained entry has end time
strictly greater than `t`, and exactly the entries with end time `≤ t`
have been discarded (retained entries keep their multiplicities, entries
with end time `≤ t` are gone entirely). -/
theorem c2_prune_to_time_exact (s : ServerSched) (t : Int) :
    (∀ e ∈ (s.prune_to_time t).heap, t < e.1 ∧ e ∈ s.heap) ∧
    (∀ e : Int × Int, t < e.1 →
      List.count e (s.prune_to_time t).heap = List.count e s.heap) ∧
    (∀ e : Int × Int, e.1 ≤ t → List.count e (s.prune_to_time t).heap = 0) := by
  refine ⟨?_, ?_, ?_⟩
  · intro e he
    have h := List.mem_filter.mp he
    exact ⟨by simpa using h.2, h.1⟩
  · intro e het
    exact List.count_filter (by simpa using het)
  · intro e het
    rw [List.count_eq_zero]
    intro hmem
    have h := (List.mem_filter.mp hmem).2
    rw [decide_eq_true_eq] at h
    omega

/-- Witness for C2 at a concrete model and time. -/
theorem c2_prune_to_time_exact_witness :
    (3:Int) < ((5:Int), (2:Int)).1 ∧
      List.count ((5:Int), (2:Int))
          ((⟨4, [(5, 2), (1, 3)]⟩ : ServerSched).prune_to_time 3).heap =
        List.count ((5:Int), (2:Int)) (⟨4, [(5, 2), (1, 3)]⟩ : ServerSched).heap :=
  ⟨by decide, (c2_prune_to_time_exact ⟨4, [(5, 2), (1, 3)]⟩ 3).2.1 (5, 2) (by decide)⟩

/-- C4: for a fixed model state, `earliest_start_for now k` is monotone
in the demand `k`; and committing one more job (an entry with a
non-negative core count, the only kind the program creates) never makes
`earliest_start_for` smaller. -/
theorem c4_earliest_start_for_monotone (s : ServerSched)
    (now k k' st c est : Int) :
    (k ≤ k' →
      (s.earliest_start_for now k).2 ≤ (s.earliest_start_for now k').2) ∧
    (0 ≤ c → (∀ e ∈ s.heap, 0 ≤ e.2) →
      (s.earliest_start_for now k).2 ≤
        ((s.add_job st c est).1.earliest_start_for now k).2) := by
  constructor
  · intro hk
    rw [earliest_start_for_eq, earliest_start_for_eq]
    exact spec_mono_k _ _ _ _ _ hk
  · intro hc hP
    rw [earliest_start_for_eq, earliest_start_for_eq]
    show earliestStartForSpec s.cores_total now k (s.prune_to_time now).heap ≤
      earliestStartForSpec (s.add_job st c est).1.cores_total now k
        ((s.add_job st c est).1.prune_to_time now).heap
    have hcs : (s.add_job st c est).1.cores_total = s.cores_total := rfl
    have hprune : ((s.add_job st c est).1.prune_to_time now).heap =
        if now < st + est then (st + est, c) :: (s.prune_to_time now).heap
        else (s.prune_to_time now).heap := by
      simp only [ServerSched.add_job, ServerSched.prune_to_time,
        List.filter_cons]
      by_cases h : now < st + est
      · simp [h]
      · simp [h]
    rw [hcs, hprune]
    by_cases h : now < st + est
    · rw [if_pos h]
      refine spec_add_mono _ _ _ _ _ _ hc ?_
      intro e he
      exact hP e (List.mem_of_mem_filter he)
    · rw [if_neg h]

/-- Witness for C4 at a concrete model, demands and added job. -/
theorem c4_earliest_start_for_monotone_witness :
    (((⟨4, [(10, 4)]⟩ : ServerSched).earliest_start_for 0 2).2 ≤
        ((⟨4, [(10, 4)]⟩ : ServerSched).earliest_start_for 0 3).2) ∧
    (((⟨4, [(10, 4)]⟩ : ServerSched).earliest_start_for 0 2).2 ≤
        (((⟨4, [(10, 4)]⟩ : ServerSched).add_job 20 1 5).1.earliest_start_for 0 2).2) :=
  ⟨(c4_earliest_start_for_monotone ⟨4, [(10, 4)]⟩ 0 2 3 20 1 5).1 (by decide),
   (c4_earliest_start_for_monotone ⟨4, [(10, 4)]⟩ 0 2 3 20 1 5).2 (by decide)
     (by decide)⟩

/-- C7: adding any sequence of jobs to a fresh model and then pruning at
every added job's exact end time, in the order the jobs end, leaves zero
running cores. -/
theorem c7_roundtrip_running_cores_zero (C : Int)
    (jobs : List (Int × Int × Int)) :
    ((sortEnds (jobs.map (fun j => j.1 + j.2.2))).foldl
        ServerSched.prune_to_time
        (jobs.foldl (fun s j => (s.add_job j.1 j.2.1 j.2.2).1)
          ⟨C, []⟩)).running_cores = 0 := by
  have hheap : ((sortEnds (jobs.map (fun j => j.1 + j.2.2))).foldl
      ServerSched.prune_to_time
      (jobs.foldl (fun s j => (s.add_job j.1 j.2.1 j.2.2).1)
        ⟨C, []⟩)).heap = [] := by
    rw [fold_prune_heap]
    refine List.filter_eq_nil_iff.mpr ?_
    intro e he
    rcases fold_add_mem jobs ⟨C, []⟩ e he with h | h
    · exact absurd h (List.not_mem_nil e)
    · intro hall
      rw [List.all_eq_true] at hall
      have hmem : e.1 ∈ sortEnds (jobs.map fun j => j.1 + j.2.2) :=
        (List.perm_insertionSort _ _).mem_iff.mpr h
      have hlt := hall e.1 hmem
      rw [decide_eq_true_eq] at hlt
      exact lt_irrefl _ hlt
  unfold ServerSched.running_cores
  rw [hheap]
  rfl

/-- C10: `earliest_start_for now k` is never earlier than `now`, and on
a model whose timeline is empty after pruning it is exactly `now`, even
when `k` exceeds the total capacity. -/
theorem c10_earliest_start_for_lower_bound (s : ServerSched) (now k : Int) :
    now ≤ (s.earliest_start_for now k).2 ∧
      ((s.prune_to_time now).heap = [] →
        (s.earliest_start_for now k).2 = now) := by
  rw [earliest_start_for_eq]
  refine ⟨spec_ge_now _ _ _ _, fun h => ?_⟩
  show earliestStartForSpec s.cores_total now k (s.prune_to_time now).heap = now
  rw [h]
  exact spec_nil _ _ _

/-- Witness for C10: a model pruned empty answers `now` for an
over-capacity demand. -/
theorem c10_earliest_start_for_lower_bound_witness :
    (10:Int) ≤ ((⟨4, [(5, 2)]⟩ : ServerSched).earliest_start_for 10 100).2 ∧
      ((⟨4, [(5, 2)]⟩ : ServerSched).earliest_start_for 10 100).2 = 10 :=
  ⟨(c10_earliest_start_for_lower_bound ⟨4, [(5, 2)]⟩ 10 100).1,
   (c10_earliest_start_for_lower_bound ⟨4, [(5, 2)]⟩ 10 100).2 (by decide)⟩

/-- C3: on a non-empty candidate list with pairwise-distinct
`(serverType, serverId)` pairs, the general path's selection picks the
unique minimum of the ascending lexicographic order on
`(finish, start, costBias, coresTotal, serverType, serverId)`: the
chosen candidate is a member that strictly beats every other candidate,
and the choice is invariant under permuting the enumeration order. -/
theorem c3_general_path_unique_min (l l' : List Cand) (hperm : l.Perm l')
    (hne : l ≠ [])
    (hdist : l.Pairwise (fun a b => (a.stype, a.sid) ≠ (b.stype, b.sid))) :
    ∃ m, selectBest l = some m ∧ selectBest l' = some m ∧ m ∈ l ∧
      ∀ c ∈ l, c ≠ m → candLt m c = true := by
  rcases foldBest_nonempty candLt candLt_trans candLt_irrefl l hne with
    ⟨m, hm, hmem, hmin⟩
  have hne' : l' ≠ [] := by
    intro h
    subst h
    exact hne hperm.eq_nil
  rcases foldBest_nonempty candLt candLt_trans candLt_irrefl l' hne' with
    ⟨m', hm', hmem', hmin'⟩
  have hsymm : Symmetric
      (fun a b : Cand => (a.stype, a.sid) ≠ (b.stype, b.sid)) :=
    fun _ _ hab h => hab h.symm
  have hpair := List.Pairwise.forall hsymm hdist
  have hmm : m' = m := by
    by_contra hne2
    have h1 : candLt m m' = false := hmin' m (hperm.mem_iff.mp hmem)
    have h2 : candLt m' m = false := hmin m' (hperm.mem_iff.mpr hmem')
    have hkey := candLt_both_false m' m h2 h1
    have hR := hpair (hperm.mem_iff.mpr hmem') hmem hne2
    exact hR (by rw [hkey.1, hkey.2])
  refine ⟨m, hm, by rw [hmm] at hm'; exact hm', hmem, ?_⟩
  intro c hc hcm
  cases h : candLt m c with
  | true => rfl
  | false =>
    have h1 : candLt c m = false := hmin c hc
    have hkey := candLt_both_false m c h h1
    have hR := hpair hc hmem hcm
    exact absurd (by rw [hkey.1, hkey.2] :
      (c.stype, c.sid) = (m.stype, m.sid)) hR

/-- Witness for C3 on two candidates equal up to the server id, in both
enumeration orders. -/
theorem c3_general_path_unique_min_witness :
    ([⟨10, 5, 0, 4, "a", 1⟩, ⟨10, 5, 0, 4, "a", 2⟩] : List Cand).Perm
        [⟨10, 5, 0, 4, "a", 2⟩, ⟨10, 5, 0, 4, "a", 1⟩] ∧
      ∃ m, selectBest [⟨10, 5, 0, 4, "a", 1⟩, ⟨10, 5, 0, 4, "a", 2⟩] = some m ∧
        selectBest [⟨10, 5, 0, 4, "a", 2⟩, ⟨10, 5, 0, 4, "a", 1⟩] = some m ∧
        m ∈ ([⟨10, 5, 0, 4, "a", 1⟩, ⟨10, 5, 0, 4, "a", 2⟩] : List Cand) ∧
        ∀ c ∈ ([⟨10, 5, 0, 4, "a", 1⟩, ⟨10, 5, 0, 4, "a", 2⟩] : List Cand),
          c ≠ m → candLt m c = true :=
  ⟨by decide,
   c3_general_path_unique_min
     [⟨10, 5, 0, 4, "a", 1⟩, ⟨10, 5, 0, 4, "a", 2⟩]
     [⟨10, 5, 0, 4, "a", 2⟩, ⟨10, 5, 0, 4, "a", 1⟩]
     (by decide) (by decide) (by decide)⟩

/-- C5: whenever the instant (fast-path) filter is non-empty and every
instant candidate has a tracked model, the decision takes the fast path:
it schedules on an instant candidate that no other instant candidate
beats on `(coresTotal, serverType, serverId)` — i.e. the smallest total
capacity with ties broken by type name then id — and records the job on
that server's model starting at the submission time `now`. -/
theorem c5_fast_path_smallest_capacity
    (tb : String → Option Int) (tr : String → Option ℚ)
    (tc : String → Option Int) (cost_bias : ℚ) (fallback : Int)
    (now j_cores j_est : Int) (caps : List ServerRow) (m : SchedMap)
    (hne : instantList j_cores caps ≠ [])
    (hm : ∀ s ∈ instantList j_cores caps,
      (mlookup m (s.type, s.id)).isSome = true) :
    ∃ row ∈ instantList j_cores caps, ∃ sc,
      mlookup m (row.type, row.id) = some sc ∧
      jobnDecision tb tr tc cost_bias fallback now j_cores j_est caps m =
        some ((row.type, row.id),
          minsert m (row.type, row.id) (sc.add_job now j_cores j_est).1) ∧
      (sc.add_job now j_cores j_est).1.heap =
        (now + j_est, j_cores) :: sc.heap ∧
      ∀ s ∈ instantList j_cores caps,
        tripleLt (fastTriple tc s) (fastTriple tc row) = false := by
  have hmapne : (instantList j_cores caps).map (fastTriple tc) ≠ [] := by
    intro h
    exact hne (List.map_eq_nil_iff.mp h)
  rcases foldBest_nonempty tripleLt tripleLt_trans tripleLt_irrefl _ hmapne
    with ⟨t, ht, htmem, htmin⟩
  rcases List.mem_map.mp htmem with ⟨row, hrow, hrowt⟩
  have hkey : (t.2.1, t.2.2) = (row.type, row.id) := by
    rw [← hrowt]
    rfl
  rcases Option.isSome_iff_exists.mp (hm row hrow) with ⟨sc, hsc⟩
  have hempty : (instantList j_cores caps).isEmpty = false := by
    cases hI : instantList j_cores caps with
    | nil => exact absurd hI hne
    | cons a as => rfl
  refine ⟨row, hrow, sc, hsc, ?_, rfl, ?_⟩
  · unfold jobnDecision
    simp only [hempty, Bool.false_eq_true, if_false]
    rw [ht]
    simp only [hkey, hsc]
  · intro s hs
    have h := htmin (fastTriple tc s) (List.mem_map_of_mem _ hs)
    rw [← hrowt] at h
    exact h

/-- Witness for C5: two instant candidates of capacities 4 and 8 with
tracked models. -/
theorem c5_fast_path_smallest_capacity_witness :
    instantList 2 [⟨"a", 1, "idle", 0, 4, 0, 0, 0, 0⟩,
        ⟨"b", 1, "active", 0, 8, 0, 0, 0, 0⟩] ≠ [] ∧
      ∃ row ∈ instantList 2 [⟨"a", 1, "idle", 0, 4, 0, 0, 0, 0⟩,
          ⟨"b", 1, "active", 0, 8, 0, 0, 0, 0⟩], ∃ sc,
        mlookup [(("a", 1), ⟨4, []⟩), (("b", 1), ⟨8, []⟩)]
          (row.type, row.id) = some sc ∧
        jobnDecision (fun _ => none) (fun _ => none) (fun _ => none) 0 80
            100 2 50
            [⟨"a", 1, "idle", 0, 4, 0, 0, 0, 0⟩,
              ⟨"b", 1, "active", 0, 8, 0, 0, 0, 0⟩]
            [(("a", 1), ⟨4, []⟩), (("b", 1), ⟨8, []⟩)] =
          some ((row.type, row.id),
            minsert [(("a", 1), ⟨4, []⟩), (("b", 1), ⟨8, []⟩)]
              (row.type, row.id) (sc.add_job 100 2 50).1) ∧
        (sc.add_job 100 2 50).1.heap = (150, 2) :: sc.heap ∧
        ∀ s ∈ instantList 2 [⟨"a", 1, "idle", 0, 4, 0, 0, 0, 0⟩,
            ⟨"b", 1, "active", 0, 8, 0, 0, 0, 0⟩],
          tripleLt (fastTriple (fun _ => none) s)
            (fastTriple (fun _ => none) row) = false :=
  ⟨by decide,
   c5_fast_path_smallest_capacity (fun _ => none) (fun _ => none)
     (fun _ => none) 0 80 100 2 50
     [⟨"a", 1, "idle", 0, 4, 0, 0, 0, 0⟩, ⟨"b", 1, "active", 0, 8, 0, 0, 0, 0⟩]
     [(("a", 1), ⟨4, []⟩), (("b", 1), ⟨8, []⟩)]
     (by decide) (by decide)⟩

/-- C6: end-to-end scenario B — with `"big"` (8 cores, 60 s boot,
`"inactive"`) and `"small"` (4 cores, 0 boot, `"idle"` with 0 free cores
and a prior unpruned 4-core job until 500), a job of 2 cores at time 100
with estimate 50 goes to `"big"` with predicted start 160 and finish
210, and `"big"`'s timeline records the entry `(210, 2)`. -/
theorem c6_scenario_b :
    (∃ q, jobnGeneral scenB_tb scenB_tr scenB_tc (1/10000) 80 100 2 50
        scenB_caps scenB_m =
      some (⟨210, 160, q, 8, "big", 1⟩,
        [(("small", 1), ⟨4, [(500, 4)]⟩), (("big", 1), ⟨8, [(210, 2)]⟩)])) ∧
    jobnDecision scenB_tb scenB_tr scenB_tc (1/10000) 80 100 2 50
        scenB_caps scenB_m =
      some (("big", 1),
        [(("small", 1), ⟨4, [(500, 4)]⟩), (("big", 1), ⟨8, [(210, 2)]⟩)]) := by
  constructor
  · exact ⟨_, rfl⟩
  · decide

/-- C8: a completion event for a server with no tracked timeline model
leaves the scheduler state unchanged. -/
theorem c8_jcpl_untracked_noop (m : SchedMap) (now : Int) (stype : String)
    (sid : Int) (h : mlookup m (stype, sid) = none) :
    jcplStep m now stype sid = m := by
  unfold jcplStep
  rw [h]

/-- Witness for C8 on a one-server state and an untracked key. -/
theorem c8_jcpl_untracked_noop_witness :
    mlookup [(("a", 1), ⟨4, []⟩)] ("b", 2) = none ∧
      jcplStep [(("a", 1), ⟨4, []⟩)] 0 "b" 2 = [(("a", 1), ⟨4, []⟩)] :=
  ⟨by decide, c8_jcpl_untracked_noop [(("a", 1), ⟨4, []⟩)] 0 "b" 2 (by decide)⟩

/-- C9: with zero capability-filtered candidates the `JOBN` handler does
not fail; it runs the normal two-phase decision over the full `GETS All`
server list. -/
theorem c9_empty_caps_widening (tb : String → Option Int)
    (tr : String → Option ℚ) (tc : String → Option Int) (cost_bias : ℚ)
    (fallback : Int) (now j_cores j_est : Int)
    (allServers : List ServerRow) (m : SchedMap) :
    jobnStep tb tr tc cost_bias fallback now j_cores j_est [] allServers m =
      jobnDecision tb tr tc cost_bias fallback now j_cores j_est
        allServers m := rfl
